import Mathlib

/-!
Verification of the `batshit` request batcher (`src/index.ts`).

The TypeScript source is shallowly embedded as a state machine:

* `BatcherState` mirrors the closure variables of `create`
  (`seq`, `batch : Set<Q>`, `currentRequest`, `timer`, `start`, `latest`).
  The JavaScript `Set` preserves insertion order, so `batch` is a
  duplicate-free list extended by `addQuery` (the embedding of `batch.add`).
  The armed timer is represented by its absolute expiry time.
* `fetchStep` embeds the body of `fetch(query)` up to the returned promise;
  the handle it returns records which deferred the caller's promise is
  chained on and with which query the correlator will run.
* `fireBatch` embeds the `setTimeout` callback body: snapshot the batch and
  the current deferred, then reset all working state.
* `processEvents`/`run` embed the single-threaded event loop: fetch calls
  arrive at nondecreasing times and an armed timer whose expiry has passed
  fires before the next call is processed; `flush` fires the still-armed
  timer after the last call.
* Timestamps come from `Date.now()`; the source guards the start timestamp
  with `if (!start)`, which is truthy for `null` and for `0`, so the
  embedding keeps that exact test (`start.getD 0 = 0`).  `Date.now()` is
  strictly positive in reality, which claims state as `0 < t`.
* `scheduler` values are `Int`: `windowScheduler` can return a negative
  number, and `setTimeout` clamps negative delays to zero (`Int.toNat`).
-/

namespace Batshit

/-- A scheduler, as in the source: `(start, latest) -> ms to wait`. -/
abbrev BatcherScheduler := Nat → Nat → Int

/-- `windowScheduler(ms)`: `ms - (latest - start)` (source lines 168-172). -/
def windowScheduler (ms : Nat) : BatcherScheduler :=
  fun start latest =>
    let spent : Int := (latest : Int) - (start : Int)
    (ms : Int) - spent

/-- `bufferScheduler(ms)`: always `ms` (source lines 180-182). -/
def bufferScheduler (ms : Nat) : BatcherScheduler :=
  fun _ _ => (ms : Int)

/-- `keyEquality(key)`: `(item, query) => item[key] === query`
(source lines 156-159).  The projection `key` plays `item[key]`; `===` on
values of one type is decidable equality, and `JSValue` below exhibits the
cross-type behaviour of `===`. -/
def keyEquality {T Q : Type} [DecidableEq Q] (key : T → Q) : T → Q → Bool :=
  fun item query => key item = query

/-- A fragment of JavaScript's value universe, enough to show that `===`
never coerces across types: a number and a string are never `===`-equal.
Decidable equality on this inductive is exactly strict equality `===`
restricted to these two type tags. -/
inductive JSValue : Type where
  | num : Int → JSValue
  | str : String → JSValue
deriving DecidableEq, Repr

/-- The closure state of `create` (source lines 89-94).  `currentRequest`
holds the identity of the live deferred; fresh deferreds get fresh ids. -/
structure BatcherState (Q : Type) where
  seq : Nat
  batch : List Q
  currentRequest : Nat
  timer : Option Nat
  start : Option Nat
  latest : Option Nat
deriving Repr, DecidableEq

/-- Initial closure state (source lines 89-94): `seq = 0`, empty batch,
first deferred, no timer, null timestamps. -/
def initState (Q : Type) : BatcherState Q :=
  { seq := 0
    batch := []
    currentRequest := 0
    timer := none
    start := none
    latest := none }

/-- `batch.add(query)` on a JavaScript `Set`: appends iff not yet present,
preserving insertion order. -/
def addQuery {Q : Type} [DecidableEq Q] (l : List Q) (q : Q) : List Q :=
  if q ∈ l then l else l ++ [q]

/-- One invocation of the external fetcher, as snapshotted by the
`setTimeout` callback (source lines 116-127): the sequence number, the
identity of the deferred the result will settle, the query list passed to
`config.fetcher`, and the time the timer fired. -/
structure Invocation (Q : Type) where
  seq : Nat
  deferredId : Nat
  queries : List Q
  fireTime : Nat
deriving Repr, DecidableEq

/-- The promise handed back to one caller of `fetch` (source lines
142-144): it is chained on the then-current deferred (`deferredId`) and
will run the correlator with the caller's `query`. -/
structure CallerHandle (Q : Type) where
  deferredId : Nat
  query : Q
deriving Repr, DecidableEq

/-- The `setTimeout` callback body (source lines 116-127, 139): snapshot
`seq`, `[...batch]` and `currentRequest`, then reset to a fresh empty
batch, a fresh deferred, no timer, null timestamps, and increment `seq`. -/
def fireBatch {Q : Type} (t : Nat) (s : BatcherState Q) :
    Invocation Q × BatcherState Q :=
  (⟨s.seq, s.currentRequest, s.batch, t⟩,
   { seq := s.seq + 1
     batch := []
     currentRequest := s.currentRequest + 1
     timer := none
     start := none
     latest := none })

/-- The body of `fetch(query)` at time `t` (source lines 98-145), stopping
before the timer fires: update `start`/`latest` (`if (!start)` is truthy
for `null` and `0`), add the query to the batch, cancel the old timer and
arm a new one `scheduler(start, latest)` ms from now (negative delays
clamp to zero), and hand the caller a promise chained on the current
deferred. -/
def fetchStep {Q : Type} [DecidableEq Q] (scheduler : BatcherScheduler)
    (t : Nat) (q : Q) (s : BatcherState Q) :
    BatcherState Q × CallerHandle Q :=
  let start := if s.start.getD 0 = 0 then t else s.start.getD 0
  let latest := t
  let batch := addQuery s.batch q
  let scheduled := scheduler start latest
  ({ s with
      batch := batch
      start := some start
      latest := some latest
      timer := some (t + scheduled.toNat) },
   ⟨s.currentRequest, q⟩)

/-- Fire the armed timer if its expiry has passed by time `t`. -/
def fireDue {Q : Type} (t : Nat) (s : BatcherState Q) :
    BatcherState Q × List (Invocation Q) :=
  match s.timer with
  | some e => if e ≤ t then
      let (inv, s') := fireBatch e s
      (s', [inv])
    else (s, [])
  | none => (s, [])

/-- The single-threaded event loop over a list of timed fetch calls: the
armed timer fires before any call past its expiry is processed; each call
then runs `fetchStep`.  Returns the final state, the fetcher invocations
made so far, and every caller's handle in call order. -/
def processEvents {Q : Type} [DecidableEq Q] (scheduler : BatcherScheduler)
    (s : BatcherState Q) :
    List (Nat × Q) → BatcherState Q × List (Invocation Q) × List (CallerHandle Q)
  | [] => (s, [], [])
  | (t, q) :: rest =>
    let fd := fireDue t s
    let fs := fetchStep scheduler t q fd.1
    let r := processEvents scheduler fs.1 rest
    (r.1, fd.2 ++ r.2.1, fs.2 :: r.2.2)

/-- After the last call, the still-armed timer eventually fires. -/
def flush {Q : Type} (s : BatcherState Q) : List (Invocation Q) :=
  match s.timer with
  | some e => [(fireBatch e s).1]
  | none => []

/-- A whole run of one batcher from creation: process the timed calls,
then let the remaining timer fire.  Yields every external fetcher
invocation, in order, and every caller's handle. -/
def run {Q : Type} [DecidableEq Q] (scheduler : BatcherScheduler)
    (events : List (Nat × Q)) : List (Invocation Q) × List (CallerHandle Q) :=
  let r := processEvents scheduler (initState Q) events
  (r.2.1 ++ flush r.1, r.2.2)

/-- The correlator applied to a settled batch result (source line 143):
`data.find((item) => equality(item, query))`.  `none` is the
`undefined` produced by the `as T` cast when nothing matches. -/
def correlate {T Q : Type} (equality : T → Q → Bool) (data : List T) (q : Q) :
    Option T :=
  data.find? (fun item => equality item q)

/-- Modelled from the spec: `deferred` (imported from `./deferred`, whose
source file is absent) is an externally-settlable promise, created fresh
per batch and settled exactly once by that batch's fetcher outcome
(spec §2 "Deferred Result", §9).  We identify each deferred by a numeric
id and represent the settlement of all deferreds by an assignment of a
fetcher outcome to each id. -/
def DeferredOutcomes (E T : Type) := Nat → Except E (List T)

/-- What a caller's returned promise settles to (source lines 129-137 and
142-144): the deferred's rejection is propagated verbatim through the
`.then` chain; on resolution the correlator extracts the caller's value. -/
def callerResult {E T Q : Type} (equality : T → Q → Bool)
    (outcomes : DeferredOutcomes E T) (h : CallerHandle Q) :
    Except E (Option T) :=
  match outcomes h.deferredId with
  | Except.error e => Except.error e
  | Except.ok data => Except.ok (correlate equality data h.query)

/-- The distinct elements of `l` in order of first occurrence: the
specification's "distinct queries in the order in which each was first
added". -/
def firstDedup {Q : Type} [DecidableEq Q] : List Q → List Q
  | [] => []
  | a :: l => a :: firstDedup (l.filter (fun b => b ≠ a))
termination_by l => l.length
decreasing_by
  simp only [List.length_cons]
  exact Nat.lt_succ_of_le (List.length_filter_le _ _)

/-- Fold `addQuery` over a list of queries: how the pending batch grows
over a sequence of `fetch` calls. -/
def addAll {Q : Type} [DecidableEq Q] (acc : List Q) (qs : List Q) : List Q :=
  qs.foldl addQuery acc

/-! ### Lemmas about the pending-set operations -/

theorem addQuery_ne_nil {Q : Type} [DecidableEq Q] (l : List Q) (q : Q) :
    addQuery l q ≠ [] := by
  unfold addQuery
  split
  · rename_i h
    intro hnil
    rw [hnil] at h
    exact absurd h (List.not_mem_nil q)
  · simp

theorem mem_addQuery {Q : Type} [DecidableEq Q] {l : List Q} {q a : Q} :
    a ∈ addQuery l q ↔ a ∈ l ∨ a = q := by
  unfold addQuery
  split
  · rename_i h
    constructor
    · exact Or.inl
    · rintro (ha | rfl)
      · exact ha
      · exact h
  · simp

theorem nodup_addQuery {Q : Type} [DecidableEq Q] {l : List Q} (q : Q)
    (hl : l.Nodup) : (addQuery l q).Nodup := by
  unfold addQuery
  split
  · exact hl
  · rename_i h
    refine hl.append (List.nodup_singleton q) ?_
    intro x hx hx1
    rw [List.mem_singleton] at hx1
    subst hx1
    exact h hx

theorem firstDedup_cons {Q : Type} [DecidableEq Q] (a : Q) (l : List Q) :
    firstDedup (a :: l) = a :: firstDedup (l.filter (fun b => b ≠ a)) := by
  rw [firstDedup]

theorem mem_firstDedup {Q : Type} [DecidableEq Q] :
    ∀ (l : List Q) (a : Q), a ∈ firstDedup l ↔ a ∈ l
  | [], a => by simp [firstDedup]
  | b :: l, a => by
    rw [firstDedup_cons]
    by_cases hab : a = b
    · subst hab
      simp
    · have := mem_firstDedup (l.filter (fun c => c ≠ b)) a
      simp only [List.mem_cons, this, List.mem_filter, ne_eq, decide_eq_true_eq]
      constructor
      · rintro (rfl | ⟨hl, _⟩)
        · exact Or.inl rfl
        · exact Or.inr hl
      · rintro (rfl | hl)
        · exact Or.inl rfl
        · exact Or.inr ⟨hl, hab⟩
termination_by l => l.length
decreasing_by
  simp only [List.length_cons]
  exact Nat.lt_succ_of_le (List.length_filter_le _ _)

theorem nodup_firstDedup {Q : Type} [DecidableEq Q] :
    ∀ l : List Q, (firstDedup l).Nodup
  | [] => by simp [firstDedup]
  | b :: l => by
    rw [firstDedup_cons]
    refine List.nodup_cons.2 ⟨fun hb => ?_, nodup_firstDedup _⟩
    have h2 := (List.mem_filter.1 ((mem_firstDedup _ b).1 hb)).2
    simp at h2
termination_by l => l.length
decreasing_by
  simp only [List.length_cons]
  exact Nat.lt_succ_of_le (List.length_filter_le _ _)

/-- Folding `batch.add` over the calls' queries yields exactly the distinct
queries in order of first occurrence among those not already batched. -/
theorem addAll_eq_firstDedup_aux {Q : Type} [DecidableEq Q] :
    ∀ (qs acc : List Q),
      addAll acc qs = acc ++ firstDedup (qs.filter (fun q => q ∉ acc))
  | [], acc => by simp [addAll, firstDedup]
  | q :: qs, acc => by
    simp only [addAll, List.foldl_cons]
    by_cases hq : q ∈ acc
    · have h1 : addQuery acc q = acc := by simp [addQuery, hq]
      rw [h1]
      have h2 := addAll_eq_firstDedup_aux qs acc
      simp only [addAll] at h2
      rw [h2]
      have h3 : (q :: qs).filter (fun b => b ∉ acc) = qs.filter (fun b => b ∉ acc) := by
        simp [List.filter_cons, hq]
      rw [h3]
    · have h1 : addQuery acc q = acc ++ [q] := by simp [addQuery, hq]
      rw [h1]
      have h2 := addAll_eq_firstDedup_aux qs (acc ++ [q])
      simp only [addAll] at h2
      rw [h2]
      have h3 : (q :: qs).filter (fun b => b ∉ acc) = q :: qs.filter (fun b => b ∉ acc) := by
        simp [List.filter_cons, hq]

      have h4 : (qs.filter (fun b => b ∉ acc)).filter (fun b => b ≠ q)
          = qs.filter (fun b => b ∉ acc ++ [q]) := by
        rw [List.filter_filter]
        apply List.filter_congr
        intro b _
        by_cases h5 : b = q <;> by_cases h6 : b ∈ acc <;> simp [h5, h6]
      rw [h3, firstDedup_cons, h4, List.append_assoc]
      rfl

/-- The batch accumulated from an empty pending set over a sequence of
calls is the calls' distinct queries in first-occurrence order. -/
theorem addAll_nil_eq_firstDedup {Q : Type} [DecidableEq Q] (qs : List Q) :
    addAll [] qs = firstDedup qs := by
  rw [addAll_eq_firstDedup_aux]
  simp

/-! ### Step lemmas for the event loop -/

theorem fireDue_not_due {Q : Type} (t : Nat) (s : BatcherState Q) (e : Nat)
    (he : s.timer = some e) (h : ¬ e ≤ t) : fireDue t s = (s, []) := by
  simp [fireDue, he, h]

theorem fireDue_of_none {Q : Type} (t : Nat) (s : BatcherState Q)
    (he : s.timer = none) : fireDue t s = (s, []) := by
  simp [fireDue, he]

/-- Inside a fixed window: a `fetch` at time `t` with `start = t0 ≤ t < t0 + ms`
re-arms the timer to expire at exactly `t0 + ms`. -/
theorem fetchStep_window {Q : Type} [DecidableEq Q] (ms t0 t : Nat) (q : Q)
    (s : BatcherState Q) (hstart : s.start = some t0) (ht0 : 0 < t0)
    (hlt : t < t0 + ms) :
    fetchStep (windowScheduler ms) t q s =
      ({ s with
          batch := addQuery s.batch q
          start := some t0
          latest := some t
          timer := some (t0 + ms) },
       ⟨s.currentRequest, q⟩) := by
  have hne : ¬ (t0 = 0) := by omega
  have hsch : t + (windowScheduler ms t0 t).toNat = t0 + ms := by
    simp only [windowScheduler]
    omega
  simp only [fetchStep, hstart, Option.getD_some, if_neg hne, hsch]

/-- While every call stays inside the fixed window `[t0, t0 + ms)`, the
event loop fires nothing, keeps the timer at `t0 + ms`, accumulates the
queries, and chains every caller onto the current deferred. -/
theorem processEvents_window {Q : Type} [DecidableEq Q] (ms : Nat) :
    ∀ (events : List (Nat × Q)) (s : BatcherState Q) (t0 tl : Nat),
      s.start = some t0 → 0 < t0 → s.timer = some (t0 + ms) → t0 ≤ tl →
      List.Chain (fun a b => a ≤ b) tl (events.map Prod.fst) →
      (∀ t ∈ events.map Prod.fst, t < t0 + ms) →
      (processEvents (windowScheduler ms) s events).2.1 = [] ∧
      (processEvents (windowScheduler ms) s events).2.2 =
        events.map (fun e => ⟨s.currentRequest, e.2⟩) ∧
      (processEvents (windowScheduler ms) s events).1.batch =
        addAll s.batch (events.map Prod.snd) ∧
      (processEvents (windowScheduler ms) s events).1.timer = some (t0 + ms) ∧
      (processEvents (windowScheduler ms) s events).1.seq = s.seq ∧
      (processEvents (windowScheduler ms) s events).1.currentRequest = s.currentRequest
  | [], s, t0, tl, hstart, ht0, htimer, htl, hchain, hwin => by
    refine ⟨rfl, rfl, rfl, htimer, rfl, rfl⟩
  | (t, q) :: rest, s, t0, tl, hstart, ht0, htimer, htl, hchain, hwin => by
    simp only [List.map_cons, List.chain_cons] at hchain
    have htlt : t < t0 + ms := hwin t (by simp)
    have hle : t0 ≤ t := le_trans htl hchain.1
    have hfd : fireDue t s = (s, []) :=
      fireDue_not_due t s (t0 + ms) htimer (by omega)
    have hfs := fetchStep_window ms t0 t q s hstart ht0 htlt
    have ih := processEvents_window ms rest
      ({ s with
          batch := addQuery s.batch q
          start := some t0
          latest := some t
          timer := some (t0 + ms) })
      t0 t rfl ht0 rfl hle hchain.2
      (fun t' ht' => hwin t' (by simp [ht']))
    obtain ⟨ih1, ih2, ih3, ih4, ih5, ih6⟩ := ih
    simp only [processEvents, hfd, hfs]
    refine ⟨by simpa using ih1, ?_, ?_, ih4, ih5, ih6⟩
    · simp only [List.map_cons]
      rw [ih2]
    · rw [ih3]
      simp [addAll]

/-- The first `fetch` call, at a positive time `t0`, on a fresh batcher
with the fixed-window scheduler: `start`/`latest` are set to `t0`, the
query is batched, and the timer is armed for `t0 + ms`. -/
theorem fetchStep_window_init {Q : Type} [DecidableEq Q] (ms t0 : Nat) (q0 : Q) :
    fetchStep (windowScheduler ms) t0 q0 (initState Q) =
      ({ seq := 0
         batch := [q0]
         currentRequest := 0
         timer := some (t0 + ms)
         start := some t0
         latest := some t0 },
       ⟨0, q0⟩) := by
  have hsch : (windowScheduler ms t0 t0).toNat = ms := by
    simp only [windowScheduler]
    omega
  simp only [fetchStep, initState, Option.getD_none, if_pos rfl, addQuery]
  simp [hsch]

/-- A complete run of the fixed-window batcher in which every call lands
inside the window opened by the first call: the single timer fires once at
`t0 + ms`, with the distinct queries in first-occurrence order, and every
caller is chained on deferred `0`. -/
theorem run_window_eq {Q : Type} [DecidableEq Q] (ms t0 : Nat) (q0 : Q)
    (rest : List (Nat × Q)) (ht0 : 0 < t0)
    (hchain : List.Chain (fun a b => a ≤ b) t0 (rest.map Prod.fst))
    (hwin : ∀ t ∈ ((t0, q0) :: rest).map Prod.fst, t < t0 + ms) :
    run (windowScheduler ms) ((t0, q0) :: rest) =
      ([⟨0, 0, firstDedup (q0 :: rest.map Prod.snd), t0 + ms⟩],
       (⟨0, q0⟩ : CallerHandle Q) :: rest.map (fun e => ⟨0, e.2⟩)) := by
  have hfd : fireDue t0 (initState Q) = (initState Q, []) :=
    fireDue_of_none t0 _ rfl
  have hfs := fetchStep_window_init ms t0 q0
  set s1 : BatcherState Q :=
    { seq := 0
      batch := [q0]
      currentRequest := 0
      timer := some (t0 + ms)
      start := some t0
      latest := some t0 } with hs1
  have hpe := processEvents_window ms rest s1 t0 t0 rfl ht0 rfl le_rfl hchain
    (fun t ht => hwin t (by simp [ht]))
  obtain ⟨h1, h2, h3, h4, h5, h6⟩ := hpe
  simp only [run, processEvents, hfd, hfs]
  have hflush : flush (processEvents (windowScheduler ms) s1 rest).1 =
      [⟨0, 0, addAll [q0] (rest.map Prod.snd), t0 + ms⟩] := by
    simp only [flush, h4, fireBatch, h3, h5, h6]
  have hbatch : addAll [q0] (rest.map Prod.snd) = firstDedup (q0 :: rest.map Prod.snd) := by
    have : addQuery [] q0 = [q0] := by simp [addQuery]
    rw [← addAll_nil_eq_firstDedup]
    simp [addAll, this]
  rw [hbatch] at hflush
  refine Prod.ext ?_ ?_
  · simp only [hflush, h1]
    simp
  · simp only [h2]

/-- A `fetch` at time `t` under the sliding buffer re-arms the timer to
expire at exactly `t + ms`, whatever the timestamps. -/
theorem fetchStep_buffer {Q : Type} [DecidableEq Q] (ms t0 t : Nat) (q : Q)
    (s : BatcherState Q) (hstart : s.start = some t0) (ht0 : 0 < t0) :
    fetchStep (bufferScheduler ms) t q s =
      ({ s with
          batch := addQuery s.batch q
          start := some t0
          latest := some t
          timer := some (t + ms) },
       ⟨s.currentRequest, q⟩) := by
  have hne : ¬ (t0 = 0) := by omega
  have hsch : (bufferScheduler ms t0 t).toNat = ms := by
    simp [bufferScheduler]
  simp only [fetchStep, hstart, Option.getD_some, if_neg hne, hsch]

/-- The first `fetch` call on a fresh batcher with the sliding buffer. -/
theorem fetchStep_buffer_init {Q : Type} [DecidableEq Q] (ms t0 : Nat) (q0 : Q) :
    fetchStep (bufferScheduler ms) t0 q0 (initState Q) =
      ({ seq := 0
         batch := [q0]
         currentRequest := 0
         timer := some (t0 + ms)
         start := some t0
         latest := some t0 },
       ⟨0, q0⟩) := by
  have hsch : (bufferScheduler ms t0 t0).toNat = ms := by
    simp [bufferScheduler]
  simp only [fetchStep, initState, Option.getD_none, if_pos rfl, addQuery]
  simp [hsch]

/-- While each call arrives before the sliding-buffer timer's expiry, the
event loop fires nothing and the timer always sits `ms` after the latest
call. -/
theorem processEvents_buffer {Q : Type} [DecidableEq Q] (ms : Nat) :
    ∀ (events : List (Nat × Q)) (s : BatcherState Q) (t0 tl : Nat),
      s.start = some t0 → 0 < t0 → s.timer = some (tl + ms) →
      List.Chain (fun a b => a ≤ b ∧ b < a + ms) tl (events.map Prod.fst) →
      (processEvents (bufferScheduler ms) s events).2.1 = [] ∧
      (processEvents (bufferScheduler ms) s events).2.2 =
        events.map (fun e => ⟨s.currentRequest, e.2⟩) ∧
      (processEvents (bufferScheduler ms) s events).1.batch =
        addAll s.batch (events.map Prod.snd) ∧
      (processEvents (bufferScheduler ms) s events).1.timer =
        some ((events.map Prod.fst).getLastD tl + ms) ∧
      (processEvents (bufferScheduler ms) s events).1.seq = s.seq ∧
      (processEvents (bufferScheduler ms) s events).1.currentRequest = s.currentRequest
  | [], s, t0, tl, hstart, ht0, htimer, hchain => by
    refine ⟨rfl, rfl, rfl, htimer, rfl, rfl⟩
  | (t, q) :: rest, s, t0, tl, hstart, ht0, htimer, hchain => by
    simp only [List.map_cons, List.chain_cons] at hchain
    have hfd : fireDue t s = (s, []) :=
      fireDue_not_due t s (tl + ms) htimer (by omega)
    have hfs := fetchStep_buffer ms t0 t q s hstart ht0
    have ih := processEvents_buffer ms rest
      ({ s with
          batch := addQuery s.batch q
          start := some t0
          latest := some t
          timer := some (t + ms) })
      t0 t rfl ht0 rfl hchain.2
    obtain ⟨ih1, ih2, ih3, ih4, ih5, ih6⟩ := ih
    simp only [processEvents, hfd, hfs]
    refine ⟨by simpa using ih1, ?_, ?_, ?_, ih5, ih6⟩
    · simp only [List.map_cons]
      rw [ih2]
    · rw [ih3]
      simp [addAll]
    · rw [ih4, List.map_cons, List.getLastD_cons]

/-- A complete run of the sliding-buffer batcher in which every call
arrives before the current timer's expiry: the timer fires once, `ms`
after the last call, with the distinct queries in first-occurrence order,
and every caller is chained on deferred `0`. -/
theorem run_buffer_eq {Q : Type} [DecidableEq Q] (ms t0 : Nat) (q0 : Q)
    (rest : List (Nat × Q)) (ht0 : 0 < t0)
    (hchain : List.Chain (fun a b => a ≤ b ∧ b < a + ms) t0 (rest.map Prod.fst)) :
    run (bufferScheduler ms) ((t0, q0) :: rest) =
      ([⟨0, 0, firstDedup (q0 :: rest.map Prod.snd),
         (rest.map Prod.fst).getLastD t0 + ms⟩],
       (⟨0, q0⟩ : CallerHandle Q) :: rest.map (fun e => ⟨0, e.2⟩)) := by
  have hfd : fireDue t0 (initState Q) = (initState Q, []) :=
    fireDue_of_none t0 _ rfl
  have hfs := fetchStep_buffer_init ms t0 q0
  set s1 : BatcherState Q :=
    { seq := 0
      batch := [q0]
      currentRequest := 0
      timer := some (t0 + ms)
      start := some t0
      latest := some t0 } with hs1
  have hpe := processEvents_buffer ms rest s1 t0 t0 rfl ht0 rfl hchain
  obtain ⟨h1, h2, h3, h4, h5, h6⟩ := hpe
  simp only [run, processEvents, hfd, hfs]
  have hflush : flush (processEvents (bufferScheduler ms) s1 rest).1 =
      [⟨0, 0, addAll [q0] (rest.map Prod.snd),
        (rest.map Prod.fst).getLastD t0 + ms⟩] := by
    simp only [flush, h4, fireBatch, h3, h5, h6]
  have hbatch : addAll [q0] (rest.map Prod.snd) = firstDedup (q0 :: rest.map Prod.snd) := by
    have hq : addQuery [] q0 = [q0] := by simp [addQuery]
    rw [← addAll_nil_eq_firstDedup]
    simp [addAll, hq]
  rw [hbatch] at hflush
  refine Prod.ext ?_ ?_
  · simp only [hflush, h1]
    simp
  · simp only [h2]

/-! ### Structural facts about single steps -/

@[simp]
theorem fetchStep_fst_batch {Q : Type} [DecidableEq Q] (sched : BatcherScheduler)
    (t : Nat) (q : Q) (s : BatcherState Q) :
    (fetchStep sched t q s).1.batch = addQuery s.batch q := rfl

@[simp]
theorem fetchStep_fst_timer_isSome {Q : Type} [DecidableEq Q]
    (sched : BatcherScheduler) (t : Nat) (q : Q) (s : BatcherState Q) :
    (fetchStep sched t q s).1.timer.isSome = true := rfl

@[simp]
theorem fetchStep_fst_currentRequest {Q : Type} [DecidableEq Q]
    (sched : BatcherScheduler) (t : Nat) (q : Q) (s : BatcherState Q) :
    (fetchStep sched t q s).1.currentRequest = s.currentRequest := rfl

@[simp]
theorem fetchStep_snd {Q : Type} [DecidableEq Q] (sched : BatcherScheduler)
    (t : Nat) (q : Q) (s : BatcherState Q) :
    (fetchStep sched t q s).2 = ⟨s.currentRequest, q⟩ := rfl

theorem fireDue_due {Q : Type} (t : Nat) (s : BatcherState Q) (e : Nat)
    (he : s.timer = some e) (h : e ≤ t) :
    fireDue t s = ((fireBatch e s).2, [(fireBatch e s).1]) := by
  simp [fireDue, he, h, fireBatch]

/-- The batch invariant: while a timer is armed the pending set is
nonempty; hence every invocation the event loop emits is nonempty. -/
theorem processEvents_inv_nonempty {Q : Type} [DecidableEq Q]
    (sched : BatcherScheduler) :
    ∀ (events : List (Nat × Q)) (s : BatcherState Q),
      (s.timer.isSome = true → s.batch ≠ []) →
      (∀ inv ∈ (processEvents sched s events).2.1, inv.queries ≠ []) ∧
      ((processEvents sched s events).1.timer.isSome = true →
        (processEvents sched s events).1.batch ≠ [])
  | [], s, hs => ⟨by simp [processEvents], hs⟩
  | (t, q) :: rest, s, hs => by
    rcases htimer : s.timer with _ | e
    · have ih := processEvents_inv_nonempty sched rest (fetchStep sched t q s).1
        (fun _ => by simpa using addQuery_ne_nil s.batch q)
      simp only [processEvents, fireDue_of_none t s htimer]
      refine ⟨?_, ih.2⟩
      intro inv hinv
      simp only [List.nil_append] at hinv
      exact ih.1 inv hinv
    · by_cases hle : e ≤ t
      · have ih := processEvents_inv_nonempty sched rest
          (fetchStep sched t q (fireBatch e s).2).1
          (fun _ => by simpa using addQuery_ne_nil (fireBatch e s).2.batch q)
        simp only [processEvents, fireDue_due t s e htimer hle]
        refine ⟨?_, ih.2⟩
        intro inv hinv
        simp only [List.cons_append, List.nil_append, List.mem_cons] at hinv
        rcases hinv with rfl | hinv
        · exact hs (by simp [htimer])
        · exact ih.1 inv hinv
      · have ih := processEvents_inv_nonempty sched rest (fetchStep sched t q s).1
          (fun _ => by simpa using addQuery_ne_nil s.batch q)
        simp only [processEvents, fireDue_not_due t s e htimer hle]
        refine ⟨?_, ih.2⟩
        intro inv hinv
        simp only [List.nil_append] at hinv
        exact ih.1 inv hinv

/-- Deferred identities are handed out in strictly increasing order: every
emitted invocation carries an id at least the current one and strictly
below the final one, and the emitted ids are strictly sorted. -/
theorem processEvents_ids {Q : Type} [DecidableEq Q] (sched : BatcherScheduler) :
    ∀ (events : List (Nat × Q)) (s : BatcherState Q),
      (∀ inv ∈ (processEvents sched s events).2.1,
        s.currentRequest ≤ inv.deferredId ∧
        inv.deferredId < (processEvents sched s events).1.currentRequest) ∧
      s.currentRequest ≤ (processEvents sched s events).1.currentRequest ∧
      ((processEvents sched s events).2.1.map (fun i => i.deferredId)).Pairwise (· < ·)
  | [], s => by
    refine ⟨by simp [processEvents], le_refl _, by simp [processEvents]⟩
  | (t, q) :: rest, s => by
    rcases htimer : s.timer with _ | e
    · have ih := processEvents_ids sched rest (fetchStep sched t q s).1
      simp only [processEvents, fireDue_of_none t s htimer]
      simp only [fetchStep_fst_currentRequest] at ih
      refine ⟨?_, ih.2.1, by simpa using ih.2.2⟩
      intro inv hinv
      simp only [List.nil_append] at hinv
      exact ih.1 inv hinv
    · by_cases hle : e ≤ t
      · have ih := processEvents_ids sched rest (fetchStep sched t q (fireBatch e s).2).1
        simp only [processEvents, fireDue_due t s e htimer hle]
        simp only [fetchStep_fst_currentRequest] at ih
        have hfresh : (fireBatch e s).2.currentRequest = s.currentRequest + 1 := rfl
        rw [hfresh] at ih
        constructor
        · intro inv hinv
          simp only [List.cons_append, List.nil_append, List.mem_cons] at hinv
          rcases hinv with rfl | hinv
          · exact ⟨le_refl _, lt_of_lt_of_le (Nat.lt_succ_self _) ih.2.1⟩
          · obtain ⟨h1, h2⟩ := ih.1 inv hinv
            exact ⟨le_trans (Nat.le_succ _) h1, h2⟩
        refine ⟨le_trans (Nat.le_succ _) ih.2.1, ?_⟩
        simp only [List.cons_append, List.nil_append, List.map_cons]
        refine List.pairwise_cons.2 ⟨?_, ih.2.2⟩
        intro d hd
        simp only [List.mem_map] at hd
        obtain ⟨inv, hinv, rfl⟩ := hd
        exact lt_of_lt_of_le (Nat.lt_succ_self _) (ih.1 inv hinv).1
      · have ih := processEvents_ids sched rest (fetchStep sched t q s).1
        simp only [processEvents, fireDue_not_due t s e htimer hle]
        simp only [fetchStep_fst_currentRequest] at ih
        refine ⟨?_, ih.2.1, by simpa using ih.2.2⟩
        intro inv hinv
        simp only [List.nil_append] at hinv
        exact ih.1 inv hinv

/-- Every invocation of a whole run carries a distinct deferred identity:
a batch never shares its deferred with any earlier or later batch. -/
theorem run_ids_nodup {Q : Type} [DecidableEq Q] (sched : BatcherScheduler)
    (events : List (Nat × Q)) :
    ((run sched events).1.map (fun i => i.deferredId)).Nodup := by
  have h := processEvents_ids sched events (initState Q)
  obtain ⟨h1, _, h3⟩ := h
  have hpw : ((processEvents sched (initState Q) events).2.1 ++
      flush (processEvents sched (initState Q) events).1).map
        (fun i => i.deferredId) |>.Pairwise (· < ·) := by
    rw [List.map_append, List.pairwise_append]
    refine ⟨h3, ?_, ?_⟩
    · rcases htimer : (processEvents sched (initState Q) events).1.timer with _ | e
      · simp [flush, htimer]
      · simp [flush, htimer, fireBatch]
    · intro a ha b hb
      simp only [List.mem_map] at ha hb
      obtain ⟨inv, hinv, rfl⟩ := ha
      obtain ⟨inv2, hinv2, rfl⟩ := hb
      rcases htimer : (processEvents sched (initState Q) events).1.timer with _ | e
      · simp [flush, htimer] at hinv2
      · simp only [flush, htimer, List.mem_singleton] at hinv2
        subst hinv2
        exact (h1 inv hinv).2
  rw [run]
  exact hpw.imp Nat.ne_of_lt

/-- A query sitting in the pending batch of the live deferred is either
eventually snapshotted into an invocation carrying that deferred's id, or
is still pending (with the timer armed) when the events run out. -/
theorem processEvents_track {Q : Type} [DecidableEq Q] (sched : BatcherScheduler) :
    ∀ (events : List (Nat × Q)) (s : BatcherState Q) (d : Nat) (q : Q),
      d = s.currentRequest → q ∈ s.batch → s.timer.isSome = true →
      (∃ inv ∈ (processEvents sched s events).2.1,
        inv.deferredId = d ∧ q ∈ inv.queries) ∨
      (d = (processEvents sched s events).1.currentRequest ∧
       q ∈ (processEvents sched s events).1.batch ∧
       (processEvents sched s events).1.timer.isSome = true)
  | [], s, d, q, hd, hq, htimer => Or.inr ⟨hd, hq, htimer⟩
  | (t, q') :: rest, s, d, q, hd, hq, htimer => by
    rcases htm : s.timer with _ | e
    · rw [htm] at htimer
      simp at htimer
    · by_cases hle : e ≤ t
      · refine Or.inl ⟨(fireBatch e s).1, ?_, hd.symm, hq⟩
        simp only [processEvents, fireDue_due t s e htm hle]
        simp
      · have ih := processEvents_track sched rest (fetchStep sched t q' s).1 d q
          (by simpa using hd)
          (by simpa using mem_addQuery.2 (Or.inl hq))
          (by simp)
        simp only [processEvents, fireDue_not_due t s e htm hle]
        rcases ih with ⟨inv, hinv, hdi, hqi⟩ | hpend
        · exact Or.inl ⟨inv, by simpa using hinv, hdi, hqi⟩
        · exact Or.inr hpend

/-- Every caller handle of a run is correlated to an invocation of the
run that carries the same deferred id and contains the caller's query. -/
theorem run_handle_coverage {Q : Type} [DecidableEq Q] (sched : BatcherScheduler)
    (events : List (Nat × Q)) :
    ∀ h ∈ (run sched events).2, ∃ inv ∈ (run sched events).1,
      inv.deferredId = h.deferredId ∧ h.query ∈ inv.queries := by
  suffices hgen : ∀ (events : List (Nat × Q)) (s : BatcherState Q),
      ∀ h ∈ (processEvents sched s events).2.2,
        (∃ inv ∈ (processEvents sched s events).2.1,
          inv.deferredId = h.deferredId ∧ h.query ∈ inv.queries) ∨
        (h.deferredId = (processEvents sched s events).1.currentRequest ∧
         h.query ∈ (processEvents sched s events).1.batch ∧
         (processEvents sched s events).1.timer.isSome = true) by
    intro h hmem
    rw [run] at hmem ⊢
    simp only at hmem
    rcases hgen events (initState Q) h hmem with ⟨inv, hinv, hdi, hqi⟩ | ⟨hdi, hqi, htm⟩
    · exact ⟨inv, List.mem_append_left _ hinv, hdi, hqi⟩
    · rcases he : (processEvents sched (initState Q) events).1.timer with _ | e
      · rw [he] at htm
        simp at htm
      · refine ⟨(fireBatch e (processEvents sched (initState Q) events).1).1,
          List.mem_append_right _ ?_, hdi.symm, hqi⟩
        simp [flush, he]
  intro evs
  induction evs with
  | nil => intro s h hmem; simp [processEvents] at hmem
  | cons e rest ih =>
    obtain ⟨t, q⟩ := e
    intro s h hmem
    have hsplit : processEvents sched s ((t, q) :: rest) =
        ((processEvents sched (fetchStep sched t q (fireDue t s).1).1 rest).1,
         (fireDue t s).2 ++
           (processEvents sched (fetchStep sched t q (fireDue t s).1).1 rest).2.1,
         (fetchStep sched t q (fireDue t s).1).2 ::
           (processEvents sched (fetchStep sched t q (fireDue t s).1).1 rest).2.2) := rfl
    rw [hsplit] at hmem ⊢
    simp only [List.mem_cons] at hmem
    rcases hmem with rfl | hmem
    · have htrack := processEvents_track sched rest
        (fetchStep sched t q (fireDue t s).1).1
        (fetchStep sched t q (fireDue t s).1).2.deferredId
        (fetchStep sched t q (fireDue t s).1).2.query
        (by simp) (by simpa using mem_addQuery.2 (Or.inr rfl)) (by simp)
      rcases htrack with ⟨inv, hinv, hdi, hqi⟩ | hpend
      · exact Or.inl ⟨inv, List.mem_append_right _ hinv, hdi, hqi⟩
      · exact Or.inr hpend
    · rcases ih (fetchStep sched t q (fireDue t s).1).1 h hmem with
        ⟨inv, hinv, hdi, hqi⟩ | hpend
      · exact Or.inl ⟨inv, List.mem_append_right _ hinv, hdi, hqi⟩
      · exact Or.inr hpend

theorem find?_eq_first_match {T : Type} (p : T → Bool) :
    ∀ (pre : List T) (x : T) (post : List T),
      (∀ y ∈ pre, p y = false) → p x = true →
      (pre ++ x :: post).find? p = some x
  | [], x, post, _, hx => by
    rw [List.nil_append, List.find?_cons_of_pos _ hx]
  | y :: ys, x, post, hpre, hx => by
    have hy : ¬ (p y = true) := by
      rw [hpre y (by simp)]
      simp
    rw [List.cons_append, List.find?_cons_of_neg _ hy]
    exact find?_eq_first_match p ys x post (fun z hz => hpre z (by simp [hz])) hx

/-! ### The claims -/

/-- C1: for every window parameter `ms` and every sequence of fetch calls
on one batcher at nondecreasing (positive) times `t0 ≤ t1 ≤ …` that all
occur before `t0 + ms`, the fixed-window scheduler returns
`ms - (latest - start)` on each call, so the re-armed timer always
expires at `t0 + ms`: the batch fires exactly `ms` after the first query
of the window, exactly one external fetcher invocation is made, and every
one of those calls is correlated to it. -/
theorem fixed_window_fires_once_at_start_plus_ms {Q : Type} [DecidableEq Q]
    (ms t0 : Nat) (q0 : Q) (rest : List (Nat × Q)) (ht0 : 0 < t0)
    (hmono : List.Chain (fun a b => a ≤ b) t0 (rest.map Prod.fst))
    (hwin : ∀ t ∈ ((t0, q0) :: rest).map Prod.fst, t < t0 + ms) :
    (∀ start latest : Nat, windowScheduler ms start latest =
        (ms : Int) - ((latest : Int) - (start : Int))) ∧
    (run (windowScheduler ms) ((t0, q0) :: rest)).1.length = 1 ∧
    (∀ inv ∈ (run (windowScheduler ms) ((t0, q0) :: rest)).1,
        inv.fireTime = t0 + ms) ∧
    (∀ h ∈ (run (windowScheduler ms) ((t0, q0) :: rest)).2,
        ∀ inv ∈ (run (windowScheduler ms) ((t0, q0) :: rest)).1,
          h.deferredId = inv.deferredId ∧ h.query ∈ inv.queries) := by
  have hrun := run_window_eq ms t0 q0 rest ht0 hmono hwin
  rw [hrun]
  refine ⟨fun s l => rfl, rfl, ?_, ?_⟩
  · intro inv hinv
    simp only [List.mem_singleton] at hinv
    subst hinv
    rfl
  · intro h hmem inv hinv
    simp only [List.mem_singleton] at hinv
    subst hinv
    simp only [List.mem_cons, List.mem_map] at hmem
    rcases hmem with rfl | ⟨ev, hev, rfl⟩
    · exact ⟨rfl, (mem_firstDedup _ _).2 (by simp)⟩
    · refine ⟨rfl, (mem_firstDedup _ _).2 ?_⟩
      exact List.mem_cons_of_mem _ (List.mem_map.2 ⟨ev, hev, rfl⟩)

theorem fixed_window_fires_once_witness :
    (run (windowScheduler 10) [(1, 0), (3, 1)]).1.length = 1 ∧
    (⟨0, 0, [0, 1], 11⟩ : Invocation Nat).fireTime = 1 + 10 := by
  have h := fixed_window_fires_once_at_start_plus_ms 10 1 0 [(3, 1)]
    (by decide) (List.Chain.cons (by decide) List.Chain.nil) (by decide)
  exact ⟨h.2.1, h.2.2.1 ⟨0, 0, [0, 1], 11⟩ (by decide)⟩

/-- C2: over one batch window, the external fetcher is invoked with a list
in which each distinct query appears exactly once, no matter how many
fetch calls passed a value-equal query. -/
theorem dedup_each_distinct_query_once {Q : Type} [DecidableEq Q]
    (ms t0 : Nat) (q0 : Q) (rest : List (Nat × Q)) (ht0 : 0 < t0)
    (hmono : List.Chain (fun a b => a ≤ b) t0 (rest.map Prod.fst))
    (hwin : ∀ t ∈ ((t0, q0) :: rest).map Prod.fst, t < t0 + ms) :
    ∀ inv ∈ (run (windowScheduler ms) ((t0, q0) :: rest)).1,
      ∀ q : Q, inv.queries.count q =
        if q ∈ ((t0, q0) :: rest).map Prod.snd then 1 else 0 := by
  have hrun := run_window_eq ms t0 q0 rest ht0 hmono hwin
  rw [hrun]
  intro inv hinv q
  simp only [List.mem_singleton] at hinv
  subst hinv
  simp only [List.map_cons]
  by_cases hq : q ∈ q0 :: rest.map Prod.snd
  · rw [if_pos hq]
    exact List.count_eq_one_of_mem (nodup_firstDedup _) ((mem_firstDedup _ _).2 hq)
  · rw [if_neg hq]
    exact List.count_eq_zero.2 (fun hmem => hq ((mem_firstDedup _ _).1 hmem))

theorem dedup_each_distinct_query_once_witness :
    (⟨0, 0, [7, 8], 11⟩ : Invocation Nat).queries.count 7 =
      if 7 ∈ [(1, 7), (3, 8), (4, 7)].map Prod.snd then 1 else 0 := by
  have h := dedup_each_distinct_query_once 10 1 7 [(3, 8), (4, 7)]
    (by decide) (List.Chain.cons (by decide) (List.Chain.cons (by decide) List.Chain.nil))
    (by decide)
  exact h ⟨0, 0, [7, 8], 11⟩ (by decide) 7

/-- C8: the external fetcher receives the batch's queries as an ordered
sequence listing the distinct queries in the order in which each was first
added to the batch by a fetch call. -/
theorem fetcher_receives_first_occurrence_order {Q : Type} [DecidableEq Q]
    (ms t0 : Nat) (q0 : Q) (rest : List (Nat × Q)) (ht0 : 0 < t0)
    (hmono : List.Chain (fun a b => a ≤ b) t0 (rest.map Prod.fst))
    (hwin : ∀ t ∈ ((t0, q0) :: rest).map Prod.fst, t < t0 + ms) :
    (run (windowScheduler ms) ((t0, q0) :: rest)).1.map (fun i => i.queries) =
      [firstDedup (((t0, q0) :: rest).map Prod.snd)] := by
  rw [run_window_eq ms t0 q0 rest ht0 hmono hwin]
  simp

theorem fetcher_receives_first_occurrence_order_witness :
    (run (windowScheduler 10) [(1, 7), (3, 8), (4, 7)]).1.map (fun i => i.queries) =
      [firstDedup ([(1, 7), (3, 8), (4, 7)].map Prod.snd)] :=
  fetcher_receives_first_occurrence_order 10 1 7 [(3, 8), (4, 7)]
    (by decide) (List.Chain.cons (by decide) (List.Chain.cons (by decide) List.Chain.nil))
    (by decide)

/-- C4: for every buffer parameter `ms`, the sliding-buffer scheduler
returns `ms` for all start/latest timestamps; each call re-arms the single
timer to `ms` from that call, so when every call arrives before the
current expiry the batch fires exactly `ms` after the most recent call and
one fetcher invocation covers all of them. -/
theorem sliding_buffer_fires_after_last_call {Q : Type} [DecidableEq Q]
    (ms t0 : Nat) (q0 : Q) (rest : List (Nat × Q)) (ht0 : 0 < t0)
    (hchain : List.Chain (fun a b => a ≤ b ∧ b < a + ms) t0 (rest.map Prod.fst)) :
    (∀ start latest : Nat, bufferScheduler ms start latest = (ms : Int)) ∧
    (run (bufferScheduler ms) ((t0, q0) :: rest)).1.length = 1 ∧
    (∀ inv ∈ (run (bufferScheduler ms) ((t0, q0) :: rest)).1,
        inv.fireTime = (((t0, q0) :: rest).map Prod.fst).getLastD 0 + ms ∧
        ∀ q : Q, q ∈ inv.queries ↔ q ∈ ((t0, q0) :: rest).map Prod.snd) ∧
    (∀ h ∈ (run (bufferScheduler ms) ((t0, q0) :: rest)).2, h.deferredId = 0) := by
  have hrun := run_buffer_eq ms t0 q0 rest ht0 hchain
  rw [hrun]
  refine ⟨fun s l => rfl, rfl, ?_, ?_⟩
  · intro inv hinv
    simp only [List.mem_singleton] at hinv
    subst hinv
    constructor
    · rw [List.map_cons, List.getLastD_cons]
    · intro q
      simp only [List.map_cons]
      exact mem_firstDedup _ q
  · intro h hmem
    simp only [List.mem_cons, List.mem_map] at hmem
    rcases hmem with rfl | ⟨ev, _, rfl⟩
    · rfl
    · rfl

theorem sliding_buffer_fires_after_last_call_witness :
    (run (bufferScheduler 10) [(1, 7), (3, 8), (11, 7)]).1.length = 1 ∧
    (⟨0, 0, [7, 8], 21⟩ : Invocation Nat).fireTime =
      ([(1, 7), (3, 8), (11, 7)].map Prod.fst).getLastD 0 + 10 := by
  have h := sliding_buffer_fires_after_last_call 10 1 7 [(3, 8), (11, 7)]
    (by decide) (List.Chain.cons (by decide) (List.Chain.cons (by decide) List.Chain.nil))
  exact ⟨h.2.1, (h.2.2.1 ⟨0, 0, [7, 8], 21⟩ (by decide)).1⟩

/-- C10: the external fetcher is never invoked with an empty query list: a
timer is only armed by a fetch call after its query entered the pending
set, and the pending set is only cleared when the timer fires. -/
theorem fetcher_never_invoked_empty {Q : Type} [DecidableEq Q]
    (sched : BatcherScheduler) (events : List (Nat × Q)) :
    ∀ inv ∈ (run sched events).1, inv.queries ≠ [] := by
  intro inv hinv
  have h := processEvents_inv_nonempty sched events (initState Q)
    (fun htm => by simp [initState] at htm)
  rw [run] at hinv
  simp only at hinv
  rcases List.mem_append.1 hinv with hmem | hmem
  · exact h.1 inv hmem
  · rcases he : (processEvents sched (initState Q) events).1.timer with _ | e
    · simp [flush, he] at hmem
    · simp only [flush, he, List.mem_singleton] at hmem
      subst hmem
      exact h.2 (by simp [he])

theorem fetcher_never_invoked_empty_witness :
    (⟨0, 0, [4], 6⟩ : Invocation Nat).queries ≠ [] :=
  fetcher_never_invoked_empty (bufferScheduler 5) [(1, 4)] ⟨0, 0, [4], 6⟩ (by decide)

/-- C3: if the fetcher outcome for a batch's deferred is the error `e`,
every caller chained on that deferred gets exactly `Except.error e`; no
two invocations of a run share a deferred, and a caller chained on any
other deferred is unaffected by what that deferred's outcome is. -/
theorem batch_failure_fan_out {E T Q : Type} [DecidableEq Q]
    (equality : T → Q → Bool) (sched : BatcherScheduler)
    (events : List (Nat × Q)) (outcomes : DeferredOutcomes E T)
    (inv : Invocation Q) (e : E)
    (hinv : inv ∈ (run sched events).1)
    (herr : outcomes inv.deferredId = Except.error e) :
    (∀ h ∈ (run sched events).2, h.deferredId = inv.deferredId →
        callerResult equality outcomes h = Except.error e) ∧
    ((run sched events).1.map (fun i => i.deferredId)).Nodup ∧
    (∀ (outcomes2 : DeferredOutcomes E T) (h : CallerHandle Q),
        h.deferredId ≠ inv.deferredId →
        (∀ d, d ≠ inv.deferredId → outcomes2 d = outcomes d) →
        callerResult equality outcomes2 h = callerResult equality outcomes h) := by
  refine ⟨?_, run_ids_nodup sched events, ?_⟩
  · intro h _ hd
    simp only [callerResult, hd, herr]
  · intro o2 h hne hag
    simp only [callerResult, hag h.deferredId hne]

theorem batch_failure_fan_out_witness :
    callerResult (fun (_ : Nat) (_ : Nat) => true)
        (fun _ => Except.error "boom") (⟨0, 7⟩ : CallerHandle Nat) =
      Except.error "boom" := by
  have h := batch_failure_fan_out (E := String) (T := Nat)
    (fun _ _ => true) (bufferScheduler 5) [(1, 7)]
    (fun _ => Except.error "boom") ⟨0, 0, [7], 6⟩ "boom" (by decide) rfl
  exact h.1 ⟨0, 7⟩ (by decide) rfl

/-- C6: when the armed timer fires, the working state is replaced by a
fresh empty pending set, a new deferred distinct from the fired batch's, a
cleared timer handle and null start/latest timestamps; a fetch call
arriving after the fire is chained on the new deferred, never the fired
one, and its caller's outcome depends only on the new deferred's own
outcome. -/
theorem timer_fire_resets_state {E T Q : Type} [DecidableEq Q]
    (equality : T → Q → Bool) (s : BatcherState Q) (t : Nat)
    (sched : BatcherScheduler) (t2 : Nat) (q : Q)
    (o1 o2 : DeferredOutcomes E T) :
    (fireBatch t s).2.batch = [] ∧
    (fireBatch t s).2.timer = none ∧
    (fireBatch t s).2.start = none ∧
    (fireBatch t s).2.latest = none ∧
    (fireBatch t s).2.currentRequest ≠ (fireBatch t s).1.deferredId ∧
    (fetchStep sched t2 q (fireBatch t s).2).2.deferredId ≠
      (fireBatch t s).1.deferredId ∧
    (o1 (fetchStep sched t2 q (fireBatch t s).2).2.deferredId =
        o2 (fetchStep sched t2 q (fireBatch t s).2).2.deferredId →
      callerResult equality o1 (fetchStep sched t2 q (fireBatch t s).2).2 =
        callerResult equality o2 (fetchStep sched t2 q (fireBatch t s).2).2) := by
  refine ⟨rfl, rfl, rfl, rfl, ?_, ?_, ?_⟩
  · simp only [fireBatch]
    omega
  · simp only [fireBatch, fetchStep_snd]
    omega
  · intro hag
    simp only [callerResult, hag]

theorem timer_fire_resets_state_witness :
    (fireBatch 6 (initState Nat)).2.batch = [] ∧
    (fireBatch 6 (initState Nat)).2.currentRequest ≠
      (fireBatch 6 (initState Nat)).1.deferredId ∧
    callerResult (E := Unit) (fun (_ : Nat) (_ : Nat) => true)
        (fun _ => Except.ok [3]) (fetchStep (bufferScheduler 5) 7 9 (fireBatch 6 (initState Nat)).2).2 =
      callerResult (fun (_ : Nat) (_ : Nat) => true)
        (fun _ => Except.ok [3]) (fetchStep (bufferScheduler 5) 7 9 (fireBatch 6 (initState Nat)).2).2 := by
  have h := timer_fire_resets_state (E := Unit) (T := Nat)
    (fun _ _ => true) (initState Nat) 6 (bufferScheduler 5) 7 9
    (fun _ => Except.ok [3]) (fun _ => Except.ok [3])
  exact ⟨h.1, h.2.2.2.2.1, h.2.2.2.2.2.2 rfl⟩

/-- C7: if the batch result contains no item matching a caller's query,
that caller's promise resolves (does not reject) with the undefined/empty
value `none`: extraction for an unmatched query raises no error and
nothing validates that every queued query was satisfied. -/
theorem unmatched_query_resolves_undefined {E T Q : Type}
    (equality : T → Q → Bool) (outcomes : DeferredOutcomes E T)
    (h : CallerHandle Q) (data : List T)
    (hdata : outcomes h.deferredId = Except.ok data)
    (hmiss : ∀ item ∈ data, equality item h.query = false) :
    callerResult equality outcomes h = Except.ok none := by
  simp only [callerResult, hdata, correlate]
  congr 1
  refine List.find?_eq_none.2 (fun item hi => ?_)
  rw [hmiss item hi]
  simp

theorem unmatched_query_resolves_undefined_witness :
    callerResult (E := Unit) (fun (item : Nat) (q : Nat) => item == q)
        (fun _ => Except.ok [1, 2]) (⟨0, 5⟩ : CallerHandle Nat) =
      Except.ok none :=
  unmatched_query_resolves_undefined (fun item q => item == q)
    (fun _ => Except.ok [1, 2]) ⟨0, 5⟩ [1, 2] rfl (by decide)

/-- C9: when the correlator predicate matches more than one item of the
batch result, the caller's promise resolves with the first matching item
in result order, all later matches ignored; and for the field-key
strategy the match test is strict `===` between the item's field and the
query: it is exactly equality at the field's type, and across JavaScript
type tags (number vs string) it is `false`, never coerced. -/
theorem correlator_first_match_strict_key :
    (∀ (T Q : Type) (equality : T → Q → Bool) (pre : List T) (x : T)
        (post : List T) (q : Q),
        (∀ y ∈ pre, equality y q = false) → equality x q = true →
        correlate equality (pre ++ x :: post) q = some x) ∧
    (∀ (T Q : Type) [inst : DecidableEq Q] (key : T → Q) (item : T) (q : Q),
        keyEquality key item q = true ↔ key item = q) ∧
    keyEquality (fun v : JSValue => v) (JSValue.num 1) (JSValue.str "1") = false := by
  refine ⟨?_, ?_, by decide⟩
  · intro T Q equality pre x post q hpre hx
    exact find?_eq_first_match _ pre x post hpre hx
  · intro T Q inst key item q
    simp [keyEquality]

theorem correlator_first_match_strict_key_witness :
    correlate (fun (item : Nat × Nat) (q : Nat) => item.2 == q)
        ([(9, 2)] ++ (1, 1) :: [(2, 1)]) 1 = some (1, 1) ∧
    (keyEquality (fun v : Nat × Nat => v.1) (3, 4) 3 = true ↔ (3, 4).1 = 3) := by
  have h := correlator_first_match_strict_key
  exact ⟨h.1 (Nat × Nat) Nat _ [(9, 2)] (1, 1) [(2, 1)] 1 (by decide) (by decide),
         h.2.1 (Nat × Nat) Nat (fun v => v.1) (3, 4) 3⟩

/-- C5 (evidence of the divergence): under the code of `src/index.ts`, a
custom correlation function is a boolean predicate on a single item
(`equality: (item, query) => boolean`, line 47) and a caller's promise
resolves with `data.find(...)` — the first matching item only (line 143).
Here both items of the batch result match the caller's query, yet the
resolved value is `some (1, 1)`, a single item, not the matching subset
`[(1, 1), (2, 1)]` that the repository's own `custom resolver` test (and
the claim) expect from a `(results, query) -> value` resolver. -/
theorem custom_equality_returns_first_match_only :
    correlate (fun (item : Nat × Nat) (q : Nat) => item.2 == q)
        [(1, 1), (2, 1)] 1 = some (1, 1) ∧
    (fun (item : Nat × Nat) (q : Nat) => item.2 == q) (2, 1) 1 = true ∧
    callerResult (E := Unit) (fun (item : Nat × Nat) (q : Nat) => item.2 == q)
        (fun _ => Except.ok [(1, 1), (2, 1)]) ⟨0, 1⟩ =
      Except.ok (some (1, 1)) :=
  ⟨rfl, rfl, rfl⟩

end Batshit
